import Mathlib

/-!
Verification of the circuit gadget utilities in
`ironfish-zkp/src/circuits/util.rs`.

The Rust source composes external proving-framework primitives (bellman
boolean allocation, zcash fixed-base scalar multiplication, Edwards point
addition and public-input registration) into four gadget builders:
`slice_into_boolean_vec_le`, `asset_info_preimage`,
`expose_value_commitment` and `expose_randomized_public_key`.

The shallow embedding below models the constraint system at the level the
specification talks about: the number of allocated boolean wires, the list
of registered public inputs, and the optional witness value carried by
each wire and point.  Curve arithmetic is modelled over an arbitrary
additive commutative group `G`, with the three fixed generators as
parameters; witnesses of circuit points are `Option G`.  Machine integers
are `Nat` with explicit `% 2 ^ 32` where the `u32` multiplication
`byte_length * 8` may wrap.
-/

namespace IronfishZkp

/-- Little-endian bits of a natural number, `k` bits long: bit `i` of the
output is `(n >>> i) &&& 1`, matching `(v >> i) & 1 == 1` in the source. -/
def bitsLE : Nat → Nat → List Bool
  | 0, _ => []
  | k + 1, n => (n % 2 == 1) :: bitsLE k (n / 2)

/-- Decode a little-endian bit list back to a natural number. -/
def decodeLE : List Bool → Nat
  | [] => 0
  | b :: bs => (if b then 1 else 0) + 2 * decodeLE bs

/-- The error type of the proving framework, `bellman::SynthesisError`.
Only the variants this core produces or propagates are distinguished;
`other` stands for any remaining variant of the Rust enum. -/
inductive SynthesisError where
  | assignmentMissing
  | unsatisfiable
  | other (code : Nat)
deriving DecidableEq, Repr

/-- The observable state of a bellman constraint system, at the level the
gadgets in `util.rs` interact with it: whether this pass evaluates witness
closures (prover pass) or only builds the circuit shape (verifier pass),
how many boolean wires have been allocated, and the list of registered
public inputs (each carrying the optional witness value of the exposed
curve point). -/
structure ConstraintSystem (G : Type) where
  proving : Bool
  numWires : Nat
  publicInputs : List (Option G)
deriving DecidableEq, Repr

/-- `bellman::gadgets::boolean::AllocatedBit::alloc`: allocates one boolean
wire carrying the given optional witness.  In a proving pass a missing
witness value fails with `AssignmentMissing` before any wire is recorded;
in a shape-only pass the witness closure is never evaluated and the
allocation always succeeds. -/
def allocBit {G : Type} (cs : ConstraintSystem G) (b : Option Bool) :
    ConstraintSystem G × Except SynthesisError (Option Bool) :=
  if cs.proving && b.isNone then (cs, .error .assignmentMissing)
  else ({ cs with numWires := cs.numWires + 1 }, .ok b)

/-- Allocate a list of boolean wires in order, stopping at the first
failure (the semantics of `collect::<Result<Vec<_>, _>>` over the
allocation of each bit). -/
def allocBits {G : Type} (cs : ConstraintSystem G) :
    List (Option Bool) →
    ConstraintSystem G × Except SynthesisError (List (Option Bool))
  | [] => (cs, .ok [])
  | b :: bs =>
    match allocBit cs b with
    | (cs1, .error e) => (cs1, .error e)
    | (cs1, .ok w) =>
      match allocBits cs1 bs with
      | (cs2, .error e) => (cs2, .error e)
      | (cs2, .ok ws) => (cs2, .ok (w :: ws))

/-- The witness bit list produced for a supplied byte sequence: each byte
expanded least-significant-bit first into eight `some` bits, bytes kept in
input order (the `flat_map` over the slice in the source). -/
def byteEnc : List Nat → List (Option Bool)
  | [] => []
  | b :: bs => (bitsLE 8 b).map some ++ byteEnc bs

/-- `slice_into_boolean_vec_le` from `util.rs`: computes
`bit_length = byte_length * 8` as a `u32` (wrapping modulo `2 ^ 32`),
expands a supplied byte sequence into little-endian-per-byte witness bits
(or `bit_length` unknown witnesses when none is supplied), allocates one
boolean wire per bit, and fails with `Unsatisfiable` when the number of
allocated wires differs from `bit_length`. -/
def slice_into_boolean_vec_le {G : Type} (cs : ConstraintSystem G)
    (value : Option (List Nat)) (byte_length : Nat) :
    ConstraintSystem G × Except SynthesisError (List (Option Bool)) :=
  let bit_length := byte_length * 8 % 2 ^ 32
  let values : List (Option Bool) :=
    match value with
    | some v => byteEnc v
    | none => List.replicate bit_length none
  match allocBits cs values with
  | (cs1, .error e) => (cs1, .error e)
  | (cs1, .ok bits) =>
    if bits.length ≠ bit_length then (cs1, .error .unsatisfiable)
    else (cs1, .ok bits)

/-! ### Basic lemmas about the bit encoding -/

theorem bitsLE_length (k n : Nat) : (bitsLE k n).length = k := by
  induction k generalizing n with
  | zero => rfl
  | succ k ih => simp [bitsLE, ih]

theorem decodeLE_bitsLE (k n : Nat) : decodeLE (bitsLE k n) = n % 2 ^ k := by
  induction k generalizing n with
  | zero => simp [bitsLE, decodeLE, Nat.mod_one]
  | succ k ih =>
    have hmul : n % 2 ^ (k + 1) = n % 2 + 2 * (n / 2 % 2 ^ k) := by
      have h2 : (2 : Nat) ^ (k + 1) = 2 * 2 ^ k := by
        rw [Nat.pow_succ, Nat.mul_comm]
      rw [h2, Nat.mod_mul]
    have hbit : (if (n % 2 == 1) then 1 else 0) = n % 2 := by
      rcases Nat.mod_two_eq_zero_or_one n with h | h <;> simp [h]
    simp only [bitsLE, decodeLE, ih, hbit, hmul]

theorem byteEnc_length (s : List Nat) : (byteEnc s).length = 8 * s.length := by
  induction s with
  | nil => rfl
  | cons b bs ih =>
    simp [byteEnc, ih, bitsLE_length, Nat.mul_succ, Nat.add_comm]

theorem byteEnc_isSome (s : List Nat) : ∀ x ∈ byteEnc s, x.isSome = true := by
  induction s with
  | nil => simp [byteEnc]
  | cons b bs ih =>
    intro x hx
    rcases List.mem_append.mp hx with h | h
    · rcases List.mem_map.mp h with ⟨y, _, rfl⟩; rfl
    · exact ih x h

/-! ### Allocation lemmas -/

theorem allocBit_proving (cs : ConstraintSystem G) (b : Option Bool) :
    (allocBit cs b).1.proving = cs.proving := by
  unfold allocBit
  split <;> rfl

theorem allocBits_ok {G : Type} (vals : List (Option Bool)) :
    ∀ cs : ConstraintSystem G,
    (∀ b ∈ vals, cs.proving = false ∨ b.isSome = true) →
    allocBits cs vals =
      ({ cs with numWires := cs.numWires + vals.length }, .ok vals) := by
  induction vals with
  | nil => intro cs _; rfl
  | cons b bs ih =>
    intro cs h
    have hb : cs.proving = false ∨ b.isSome = true := h b (by simp)
    have hcond : (cs.proving && b.isNone) = false := by
      rcases hb with h1 | h1
      · simp [h1]
      · cases b with
        | none => simp at h1
        | some v => simp
    have hbs : ∀ x ∈ bs,
        ({ cs with numWires := cs.numWires + 1 } :
          ConstraintSystem G).proving = false ∨ x.isSome = true := by
      intro x hx
      exact h x (by simp [hx])
    simp only [allocBits, allocBit, hcond, Bool.false_eq_true, if_false,
      ih _ hbs]
    simp only [List.length_cons]
    have harith : cs.numWires + 1 + bs.length = cs.numWires + (bs.length + 1) := by
      omega
    rw [harith]

/-! ### Reading the produced bits back into bytes -/

/-- The raw (witness-level) little-endian bits of a byte sequence, eight
bits per byte, bytes in input order. -/
def rawBitsLE : List Nat → List Bool
  | [] => []
  | b :: bs => bitsLE 8 b ++ rawBitsLE bs

/-- Group a bit list eight bits at a time, decoding each group
least-significant-bit first into a byte value. -/
def bytesOfBits : List Bool → List Nat
  | b0 :: b1 :: b2 :: b3 :: b4 :: b5 :: b6 :: b7 :: rest =>
      decodeLE [b0, b1, b2, b3, b4, b5, b6, b7] :: bytesOfBits rest
  | _ => []

theorem byteEnc_eq_map_some (s : List Nat) :
    byteEnc s = (rawBitsLE s).map some := by
  induction s with
  | nil => rfl
  | cons b bs ih => simp [byteEnc, rawBitsLE, ih]

theorem bytesOfBits_append (b : Nat) (rest : List Bool) :
    bytesOfBits (bitsLE 8 b ++ rest) = b % 256 :: bytesOfBits rest := by
  have hd : decodeLE (bitsLE 8 b) = b % 256 := decodeLE_bitsLE 8 b
  have h8 : bitsLE 8 b =
      [b % 2 == 1, b / 2 % 2 == 1, b / 2 / 2 % 2 == 1,
       b / 2 / 2 / 2 % 2 == 1, b / 2 / 2 / 2 / 2 % 2 == 1,
       b / 2 / 2 / 2 / 2 / 2 % 2 == 1, b / 2 / 2 / 2 / 2 / 2 / 2 % 2 == 1,
       b / 2 / 2 / 2 / 2 / 2 / 2 / 2 % 2 == 1] := by
    simp [bitsLE]
  rw [h8] at hd ⊢
  simp only [List.cons_append, List.nil_append, bytesOfBits]
  rw [hd]
  simp

theorem bytesOfBits_rawBitsLE (s : List Nat) (h : ∀ b ∈ s, b < 256) :
    bytesOfBits (rawBitsLE s) = s := by
  induction s with
  | nil => rfl
  | cons b bs ih =>
    have hb : b < 256 := h b (by simp)
    have hbs : ∀ x ∈ bs, x < 256 := fun x hx => h x (by simp [hx])
    simp [rawBitsLE, bytesOfBits_append, Nat.mod_eq_of_lt hb, ih hbs]

theorem filterMap_id_map_some (l : List Bool) :
    (l.map some).filterMap id = l := by
  rw [List.filterMap_map]
  simp

/-! ### Behaviour of `slice_into_boolean_vec_le` -/

theorem slice_some_eq {G : Type} (cs : ConstraintSystem G) (s : List Nat)
    (L : Nat) (hlen : s.length = L) (hL : 8 * L < 2 ^ 32) :
    slice_into_boolean_vec_le cs (some s) L =
      ({ cs with numWires := cs.numWires + 8 * L }, .ok (byteEnc s)) := by
  have hbits : (byteEnc s).length = 8 * L := by
    rw [byteEnc_length, hlen]
  have hok : ∀ b ∈ byteEnc s, cs.proving = false ∨ b.isSome = true :=
    fun b hb => Or.inr (byteEnc_isSome s b hb)
  have hmod : L * 8 % 2 ^ 32 = 8 * L := by
    rw [Nat.mul_comm, Nat.mod_eq_of_lt hL]
  simp only [slice_into_boolean_vec_le, hmod, allocBits_ok _ _ hok, hbits]
  simp

theorem slice_some_mismatch {G : Type} (cs : ConstraintSystem G)
    (s : List Nat) (L : Nat) (hne : s.length ≠ L) (hL : 8 * L < 2 ^ 32) :
    slice_into_boolean_vec_le cs (some s) L =
      ({ cs with numWires := cs.numWires + 8 * s.length },
        .error .unsatisfiable) := by
  have hok : ∀ b ∈ byteEnc s, cs.proving = false ∨ b.isSome = true :=
    fun b hb => Or.inr (byteEnc_isSome s b hb)
  have hmod : L * 8 % 2 ^ 32 = 8 * L := by
    rw [Nat.mul_comm, Nat.mod_eq_of_lt hL]
  have hneq : (byteEnc s).length ≠ 8 * L := by
    rw [byteEnc_length]
    omega
  simp only [slice_into_boolean_vec_le, hmod, allocBits_ok _ _ hok,
    byteEnc_length]
  simp [hneq, hne]

theorem slice_none_eq {G : Type} (cs : ConstraintSystem G) (L : Nat)
    (hp : cs.proving = false) :
    slice_into_boolean_vec_le cs none L =
      ({ cs with numWires := cs.numWires + L * 8 % 2 ^ 32 },
        .ok (List.replicate (L * 8 % 2 ^ 32) none)) := by
  have hok : ∀ b ∈ List.replicate (L * 8 % 2 ^ 32) (none : Option Bool),
      cs.proving = false ∨ b.isSome = true := fun b _ => Or.inl hp
  simp only [slice_into_boolean_vec_le, allocBits_ok _ _ hok,
    List.length_replicate]
  simp

/-! ### Scalar field, point handles and external curve primitives

The curve arithmetic (`zcash_proofs::circuit::ecc`) is an external
collaborator of this core; it is modelled at the witness level over an
arbitrary additive commutative group `G`, with the three fixed generators
passed as parameters.  The scalar field is `jubjub::Fr`, whose modulus is
the 252-bit prime below (`jubjub::Fr::NUM_BITS = 252`). -/

def jubjubOrder : Nat :=
  6554484396890773809930967563523245729705921265872317281365359162392183254199

instance : NeZero jubjubOrder := ⟨by norm_num [jubjubOrder]⟩

/-- The scalar field `jubjub::Fr`. -/
abbrev JubjubFr : Type := ZMod jubjubOrder

/-- The scalar multiple `r · P` of a point by a field element: the
canonical representative of `r` acting on the group. -/
def scalarMul {G : Type} [AddCommGroup G] (r : JubjubFr) (p : G) : G :=
  r.val • p

/-- A `zcash_proofs::circuit::ecc::EdwardsPoint` handle, modelled by the
optional witness value of the point it carries. -/
structure EdwardsPoint (G : Type) where
  value : Option G
deriving DecidableEq, Repr

/-- Collect the witness values of a bit list; known only when every bit is
known. -/
def collectBits : List (Option Bool) → Option (List Bool)
  | [] => some []
  | some b :: bs => (collectBits bs).map (b :: ·)
  | none :: _ => none

/-- `bellman::gadgets::boolean::u64_into_boolean_vec_le`: 64 boolean wires
holding the little-endian bits of the value, or 64 unknown witnesses. -/
def u64_into_boolean_vec_le {G : Type} (cs : ConstraintSystem G)
    (value : Option Nat) :
    ConstraintSystem G × Except SynthesisError (List (Option Bool)) :=
  let values : List (Option Bool) :=
    match value with
    | some v => (bitsLE 64 v).map some
    | none => List.replicate 64 none
  allocBits cs values

/-- `bellman::gadgets::boolean::field_into_boolean_vec_le` at `jubjub::Fr`:
`Fr::NUM_BITS = 252` boolean wires holding the little-endian bits of the
canonical representative, or 252 unknown witnesses.  The representation is
deliberately not range-checked against the field modulus. -/
def field_into_boolean_vec_le {G : Type} (cs : ConstraintSystem G)
    (value : Option JubjubFr) :
    ConstraintSystem G × Except SynthesisError (List (Option Bool)) :=
  let values : List (Option Bool) :=
    match value with
    | some v => (bitsLE 252 v.val).map some
    | none => List.replicate 252 none
  allocBits cs values

/-- `zcash_proofs::circuit::ecc::fixed_base_multiplication` at the witness
level: the resulting point handle carries the little-endian value of the
bit sequence times the fixed generator, known exactly when every bit
witness is known. -/
def fixed_base_multiplication {G : Type} [AddCommGroup G]
    (cs : ConstraintSystem G) (generator : G) (bits : List (Option Bool)) :
    ConstraintSystem G × Except SynthesisError (EdwardsPoint G) :=
  (cs, .ok ⟨(collectBits bits).map (fun bs => decodeLE bs • generator)⟩)

/-- `EdwardsPoint::add` at the witness level: the sum is known exactly when
both summands are. -/
def pointAdd {G : Type} [AddCommGroup G] (cs : ConstraintSystem G)
    (p q : EdwardsPoint G) :
    ConstraintSystem G × Except SynthesisError (EdwardsPoint G) :=
  (cs, .ok ⟨match p.value, q.value with
            | some a, some b => some (a + b)
            | _, _ => none⟩)

/-- `EdwardsPoint::inputize`: registers the point as a public input of the
circuit. -/
def inputize {G : Type} (cs : ConstraintSystem G) (p : EdwardsPoint G) :
    ConstraintSystem G × Except SynthesisError Unit :=
  ({ cs with publicInputs := cs.publicInputs ++ [p.value] }, .ok ())

theorem collectBits_map_some (l : List Bool) :
    collectBits (l.map some) = some l := by
  induction l with
  | nil => rfl
  | cons b bs ih => simp [collectBits, ih]

/-! ### The three composite gadgets of `util.rs` -/

/-- `zcash_primitives::sapling::ValueCommitment`: a secret 64-bit amount
together with a blinding factor in the scalar field. -/
structure ValueCommitment where
  value : Nat
  randomness : JubjubFr

/-- `asset_info_preimage` from `util.rs`: concatenates the public key's
canonical bit representation with the bit encodings of the 32-byte name,
the 76-byte metadata and the single nonce byte, propagating the first
error.  The point-representation primitive (`EdwardsPoint::repr`, external
to this core) is passed in as `reprPrim`, standing for whatever the
framework returns for the given point handle in the given constraint
system. -/
def asset_info_preimage {G : Type}
    (reprPrim : ConstraintSystem G → EdwardsPoint G →
      ConstraintSystem G × Except SynthesisError (List (Option Bool)))
    (cs : ConstraintSystem G) (name : List Nat) (metadata : List Nat)
    (asset_public_key : EdwardsPoint G) (nonce : Nat) :
    ConstraintSystem G × Except SynthesisError (List (Option Bool)) :=
  match reprPrim cs asset_public_key with
  | (cs1, .error e) => (cs1, .error e)
  | (cs1, .ok pkBits) =>
    match slice_into_boolean_vec_le cs1 (some name) 32 with
    | (cs2, .error e) => (cs2, .error e)
    | (cs2, .ok nameBits) =>
      match slice_into_boolean_vec_le cs2 (some metadata) 76 with
      | (cs3, .error e) => (cs3, .error e)
      | (cs3, .ok metadataBits) =>
        match slice_into_boolean_vec_le cs3 (some [nonce]) 1 with
        | (cs4, .error e) => (cs4, .error e)
        | (cs4, .ok nonceBits) =>
          (cs4, .ok (pkBits ++ nameBits ++ metadataBits ++ nonceBits))

/-- `expose_value_commitment` from `util.rs`: booleanizes the amount and
the blinding factor, multiplies them by the value and randomness
generators, adds the two points into the Pedersen commitment, registers it
as a public input, and returns the amount's bit sequence. -/
def expose_value_commitment {G : Type} [AddCommGroup G]
    (valueGen randomnessGen : G) (cs : ConstraintSystem G)
    (value_commitment : Option ValueCommitment) :
    ConstraintSystem G × Except SynthesisError (List (Option Bool)) :=
  match u64_into_boolean_vec_le cs (value_commitment.map (·.value)) with
  | (cs1, .error e) => (cs1, .error e)
  | (cs1, .ok value_bits) =>
    match fixed_base_multiplication cs1 valueGen value_bits with
    | (cs2, .error e) => (cs2, .error e)
    | (cs2, .ok value) =>
      match field_into_boolean_vec_le cs2
          (value_commitment.map (·.randomness)) with
      | (cs3, .error e) => (cs3, .error e)
      | (cs3, .ok rcv_bits) =>
        match fixed_base_multiplication cs3 randomnessGen rcv_bits with
        | (cs4, .error e) => (cs4, .error e)
        | (cs4, .ok rcv) =>
          match pointAdd cs4 value rcv with
          | (cs5, .error e) => (cs5, .error e)
          | (cs5, .ok cv) =>
            match inputize cs5 cv with
            | (cs6, .error e) => (cs6, .error e)
            | (cs6, .ok _) => (cs6, .ok value_bits)

/-- `expose_randomized_public_key` from `util.rs`: booleanizes the
randomizer, multiplies it by the asset-key generator, adds the result to
the given public key, and registers the randomized key as a public input,
returning only that side effect. -/
def expose_randomized_public_key {G : Type} [AddCommGroup G]
    (assetKeyGen : G) (cs : ConstraintSystem G)
    (public_key_randomness : Option JubjubFr)
    (asset_public_key : EdwardsPoint G) :
    ConstraintSystem G × Except SynthesisError Unit :=
  match field_into_boolean_vec_le cs public_key_randomness with
  | (cs1, .error e) => (cs1, .error e)
  | (cs1, .ok public_key_randomness_bits) =>
    match fixed_base_multiplication cs1 assetKeyGen
        public_key_randomness_bits with
    | (cs2, .error e) => (cs2, .error e)
    | (cs2, .ok offset) =>
      match pointAdd cs2 asset_public_key offset with
      | (cs3, .error e) => (cs3, .error e)
      | (cs3, .ok randomized_public_key) =>
        match inputize cs3 randomized_public_key with
        | (cs4, .error e) => (cs4, .error e)
        | (cs4, .ok _) => (cs4, .ok ())

/-! ### Further computation lemmas -/

theorem decodeLE_bitsLE_of_lt (k n : Nat) (h : n < 2 ^ k) :
    decodeLE (bitsLE k n) = n := by
  rw [decodeLE_bitsLE]
  exact Nat.mod_eq_of_lt h

theorem jubjubOrder_lt : jubjubOrder < 2 ^ 252 := by
  norm_num [jubjubOrder]

theorem u64_some_eq {G : Type} (cs : ConstraintSystem G) (v : Nat) :
    u64_into_boolean_vec_le cs (some v) =
      ({ cs with numWires := cs.numWires + 64 },
        .ok ((bitsLE 64 v).map some)) := by
  have hok : ∀ b ∈ (bitsLE 64 v).map some,
      cs.proving = false ∨ b.isSome = true := by
    intro b hb
    rcases List.mem_map.mp hb with ⟨y, _, rfl⟩
    exact Or.inr rfl
  simp [u64_into_boolean_vec_le, allocBits_ok _ _ hok, bitsLE_length]

theorem field_some_eq {G : Type} (cs : ConstraintSystem G) (r : JubjubFr) :
    field_into_boolean_vec_le cs (some r) =
      ({ cs with numWires := cs.numWires + 252 },
        .ok ((bitsLE 252 r.val).map some)) := by
  have hok : ∀ b ∈ (bitsLE 252 r.val).map some,
      cs.proving = false ∨ b.isSome = true := by
    intro b hb
    rcases List.mem_map.mp hb with ⟨y, _, rfl⟩
    exact Or.inr rfl
  simp [field_into_boolean_vec_le, allocBits_ok _ _ hok, bitsLE_length]

/-- A concrete shape-only constraint system over the integers, used to
instantiate the parametric theorems at concrete inputs. -/
def csZ : ConstraintSystem Int := ⟨false, 0, []⟩

/-! ### Claim theorems about the Bit Encoder -/

/-- C3: for every byte sequence `s` of length `L` with `8 L` inside the
`u32` range, `slice_into_boolean_vec_le cs (some s) L` succeeds with
exactly `8 L` bit wires whose witness values, grouped eight per byte in
order with the bits of each group read least-significant-bit first,
reconstruct `s` exactly. -/
theorem slice_into_boolean_vec_le_roundtrip {G : Type}
    (cs : ConstraintSystem G) (s : List Nat) (L : Nat)
    (hlen : s.length = L) (hL : 8 * L < 2 ^ 32)
    (hbytes : ∀ b ∈ s, b < 256) :
    (slice_into_boolean_vec_le cs (some s) L).2 = .ok (byteEnc s) ∧
    (byteEnc s).length = 8 * L ∧
    bytesOfBits ((byteEnc s).filterMap id) = s := by
  refine ⟨?_, ?_, ?_⟩
  · rw [slice_some_eq cs s L hlen hL]
  · rw [byteEnc_length, hlen]
  · rw [byteEnc_eq_map_some, filterMap_id_map_some,
      bytesOfBits_rawBitsLE s hbytes]

/-- Witness for C3 at `s = [1, 2]`, `L = 2`. -/
theorem slice_into_boolean_vec_le_roundtrip_witness :
    ([1, 2] : List Nat).length = 2 ∧ 8 * 2 < 2 ^ 32 ∧
    (∀ b ∈ ([1, 2] : List Nat), b < 256) ∧
    ((slice_into_boolean_vec_le csZ (some [1, 2]) 2).2 =
        .ok (byteEnc [1, 2]) ∧
      (byteEnc [1, 2]).length = 8 * 2 ∧
      bytesOfBits ((byteEnc [1, 2]).filterMap id) = [1, 2]) :=
  ⟨rfl, by norm_num, by decide,
    slice_into_boolean_vec_le_roundtrip csZ [1, 2] 2 rfl (by norm_num)
      (by decide)⟩

/-- C5: for every `byte_length` `L` with `8 L` inside the `u32` range, the
shape-only path `slice_into_boolean_vec_le cs none L` succeeds with
exactly `8 L` bit wires, each carrying no witness value. -/
theorem slice_into_boolean_vec_le_none_path {G : Type}
    (cs : ConstraintSystem G) (L : Nat)
    (hp : cs.proving = false) (hL : 8 * L < 2 ^ 32) :
    (slice_into_boolean_vec_le cs none L).2 =
      .ok (List.replicate (8 * L) none) ∧
    (slice_into_boolean_vec_le cs none L).1.numWires =
      cs.numWires + 8 * L ∧
    (List.replicate (8 * L) (none : Option Bool)).length = 8 * L ∧
    ∀ b ∈ List.replicate (8 * L) (none : Option Bool), b = none := by
  have hmod : L * 8 % 2 ^ 32 = 8 * L := by
    rw [Nat.mul_comm, Nat.mod_eq_of_lt hL]
  rw [slice_none_eq cs L hp, hmod]
  refine ⟨rfl, rfl, List.length_replicate _ _, ?_⟩
  intro b hb
  exact List.eq_of_mem_replicate hb

/-- Witness for C5 at `L = 3`. -/
theorem slice_into_boolean_vec_le_none_path_witness :
    csZ.proving = false ∧ 8 * 3 < 2 ^ 32 ∧
    ((slice_into_boolean_vec_le csZ none 3).2 =
        .ok (List.replicate (8 * 3) none) ∧
      (slice_into_boolean_vec_le csZ none 3).1.numWires =
        csZ.numWires + 8 * 3 ∧
      (List.replicate (8 * 3) (none : Option Bool)).length = 8 * 3 ∧
      ∀ b ∈ List.replicate (8 * 3) (none : Option Bool), b = none) :=
  ⟨rfl, by norm_num,
    slice_into_boolean_vec_le_none_path csZ 3 rfl (by norm_num)⟩

/-- C6: when the supplied byte sequence's length differs from the declared
`byte_length`, `slice_into_boolean_vec_le` fails with the
unsatisfiable-circuit error instead of returning a bit sequence. -/
theorem slice_into_boolean_vec_le_length_mismatch {G : Type}
    (cs : ConstraintSystem G) (s : List Nat) (L : Nat)
    (hne : s.length ≠ L) (hL : 8 * L < 2 ^ 32) :
    (slice_into_boolean_vec_le cs (some s) L).2 =
      .error .unsatisfiable := by
  rw [slice_some_mismatch cs s L hne hL]

/-- Witness for C6 at `s = [1]`, `L = 2`. -/
theorem slice_into_boolean_vec_le_length_mismatch_witness :
    ([1] : List Nat).length ≠ 2 ∧ 8 * 2 < 2 ^ 32 ∧
    (slice_into_boolean_vec_le csZ (some [1]) 2).2 =
      .error .unsatisfiable :=
  ⟨by decide, by norm_num,
    slice_into_boolean_vec_le_length_mismatch csZ [1] 2 (by decide)
      (by norm_num)⟩

/-- C9: the bit count is the wrapping 32-bit product `byte_length * 8`:
for every `byte_length` of at least `2 ^ 29` (still representable as a
`u32`), the computed bit length is `byte_length * 8 % 2 ^ 32`, which
differs from `8 * byte_length`, and the `none` path allocates exactly that
wrapped number of wires. -/
theorem slice_into_boolean_vec_le_overflow {G : Type}
    (cs : ConstraintSystem G) (L : Nat)
    (h1 : 2 ^ 29 ≤ L) (h2 : L < 2 ^ 32) (hp : cs.proving = false) :
    (slice_into_boolean_vec_le cs none L).1.numWires =
      cs.numWires + L * 8 % 2 ^ 32 ∧
    (slice_into_boolean_vec_le cs none L).2 =
      .ok (List.replicate (L * 8 % 2 ^ 32) none) ∧
    L * 8 % 2 ^ 32 ≠ 8 * L := by
  rw [slice_none_eq cs L hp]
  refine ⟨rfl, rfl, ?_⟩
  have hbig : 2 ^ 32 ≤ 8 * L := by
    calc (2 : Nat) ^ 32 = 8 * 2 ^ 29 := by norm_num
    _ ≤ 8 * L := Nat.mul_le_mul_left 8 h1
  have hlt : L * 8 % 2 ^ 32 < 2 ^ 32 := Nat.mod_lt _ (by norm_num)
  omega

/-- Witness for C9 at `byte_length = 2 ^ 29`, where the wrapped bit count
is `0`. -/
theorem slice_into_boolean_vec_le_overflow_witness :
    2 ^ 29 ≤ 2 ^ 29 ∧ 2 ^ 29 < 2 ^ 32 ∧ csZ.proving = false ∧
    ((slice_into_boolean_vec_le csZ none (2 ^ 29)).1.numWires =
        csZ.numWires + 2 ^ 29 * 8 % 2 ^ 32 ∧
      (slice_into_boolean_vec_le csZ none (2 ^ 29)).2 =
        .ok (List.replicate (2 ^ 29 * 8 % 2 ^ 32) none) ∧
      2 ^ 29 * 8 % 2 ^ 32 ≠ 8 * 2 ^ 29) :=
  ⟨Nat.le_refl _, by norm_num, rfl,
    slice_into_boolean_vec_le_overflow csZ (2 ^ 29) (Nat.le_refl _)
      (by norm_num) rfl⟩

/-- C10 counterexample: with the empty supplied sequence and declared
`byte_length = 1`, the call returns the unsatisfiable-circuit error yet
leaves the constraint system exactly as it was, so the error return can
leave the constraint system unchanged. -/
theorem slice_error_can_leave_cs_unchanged :
    (slice_into_boolean_vec_le csZ (some []) 1).2 =
      .error .unsatisfiable ∧
    (slice_into_boolean_vec_le csZ (some []) 1).1 = csZ := by
  constructor <;> rfl

/-- C10 (amended): on a supplied sequence whose bit count differs from
`byte_length * 8`, all `8 * len(s)` boolean wires are allocated before the
length check fails with the unsatisfiable-circuit error, and whenever the
sequence is nonempty this leaves the constraint system changed. -/
theorem slice_mismatch_allocates_before_check {G : Type}
    (cs : ConstraintSystem G) (s : List Nat) (L : Nat)
    (hne : s.length ≠ L) (hL : 8 * L < 2 ^ 32) :
    (slice_into_boolean_vec_le cs (some s) L).1 =
      { cs with numWires := cs.numWires + 8 * s.length } ∧
    (slice_into_boolean_vec_le cs (some s) L).2 =
      .error .unsatisfiable ∧
    (s ≠ [] → (slice_into_boolean_vec_le cs (some s) L).1 ≠ cs) := by
  rw [slice_some_mismatch cs s L hne hL]
  refine ⟨rfl, rfl, ?_⟩
  intro hs h
  have hw := congrArg ConstraintSystem.numWires h
  simp only at hw
  have hpos : 0 < s.length := List.length_pos.mpr hs
  omega

/-- Witness for the amended C10 at `s = [1]`, `L = 2`. -/
theorem slice_mismatch_allocates_before_check_witness :
    ([1] : List Nat).length ≠ 2 ∧ 8 * 2 < 2 ^ 32 ∧
    ((slice_into_boolean_vec_le csZ (some [1]) 2).1 =
        { csZ with numWires := csZ.numWires + 8 * ([1] : List Nat).length } ∧
      (slice_into_boolean_vec_le csZ (some [1]) 2).2 =
        .error .unsatisfiable ∧
      (([1] : List Nat) ≠ [] →
        (slice_into_boolean_vec_le csZ (some [1]) 2).1 ≠ csZ)) :=
  ⟨by decide, by norm_num,
    slice_mismatch_allocates_before_check csZ [1] 2 (by decide)
      (by norm_num)⟩

/-! ### Claim theorems about the Preimage Assembler -/

/-- C2: for every public-key handle, 32-byte name, 76-byte metadata and
nonce byte, `asset_info_preimage` returns exactly the concatenation of the
public key's bit representation, the 256-bit name encoding, the 608-bit
metadata encoding and the 8-bit nonce encoding, of total length
`len(pubkey_repr) + 256 + 608 + 8` independent of the actual values. -/
theorem asset_info_preimage_concat {G : Type}
    (reprPrim : ConstraintSystem G → EdwardsPoint G →
      ConstraintSystem G × Except SynthesisError (List (Option Bool)))
    (cs cs1 : ConstraintSystem G) (name metadata : List Nat)
    (pk : EdwardsPoint G) (nonce : Nat) (pb : List (Option Bool))
    (hname : name.length = 32) (hmeta : metadata.length = 76)
    (hrepr : reprPrim cs pk = (cs1, .ok pb)) :
    (asset_info_preimage reprPrim cs name metadata pk nonce).2 =
      .ok (pb ++ byteEnc name ++ byteEnc metadata ++ byteEnc [nonce]) ∧
    (pb ++ byteEnc name ++ byteEnc metadata ++ byteEnc [nonce]).length =
      pb.length + 256 + 608 + 8 := by
  constructor
  · simp only [asset_info_preimage, hrepr,
      slice_some_eq _ name 32 hname (by norm_num),
      slice_some_eq _ metadata 76 hmeta (by norm_num),
      slice_some_eq _ [nonce] 1 rfl (by norm_num)]
  · simp [List.length_append, byteEnc_length, hname, hmeta]

/-- Witness for C2 at the all-zero inputs with a trivial representation
primitive. -/
theorem asset_info_preimage_concat_witness :
    (List.replicate 32 (0 : Nat)).length = 32 ∧
    (List.replicate 76 (0 : Nat)).length = 76 ∧
    (fun (cs : ConstraintSystem Int) (_ : EdwardsPoint Int) =>
        (cs, (.ok [] : Except SynthesisError (List (Option Bool)))))
      csZ ⟨some 0⟩ = (csZ, .ok []) ∧
    ((asset_info_preimage
        (fun (cs : ConstraintSystem Int) (_ : EdwardsPoint Int) =>
          (cs, (.ok [] : Except SynthesisError (List (Option Bool)))))
        csZ (List.replicate 32 0) (List.replicate 76 0) ⟨some 0⟩ 0).2 =
      .ok ([] ++ byteEnc (List.replicate 32 0) ++
        byteEnc (List.replicate 76 0) ++ byteEnc [0]) ∧
    ([] ++ byteEnc (List.replicate 32 0) ++ byteEnc (List.replicate 76 0) ++
        byteEnc [0]).length =
      ([] : List (Option Bool)).length + 256 + 608 + 8) :=
  ⟨rfl, rfl, rfl,
    asset_info_preimage_concat _ csZ csZ (List.replicate 32 0)
      (List.replicate 76 0) ⟨some 0⟩ 0 [] rfl rfl rfl⟩

/-- C7: `asset_info_preimage` never returns a partial bit sequence: either
it returns the full concatenated preimage, or it returns unchanged the
first error produced by the public-key representation extraction (its
Bit-Encoder calls, at the fixed 32-, 76- and 1-byte lengths, cannot
fail). -/
theorem asset_info_preimage_all_or_error {G : Type}
    (reprPrim : ConstraintSystem G → EdwardsPoint G →
      ConstraintSystem G × Except SynthesisError (List (Option Bool)))
    (cs : ConstraintSystem G) (name metadata : List Nat)
    (pk : EdwardsPoint G) (nonce : Nat)
    (hname : name.length = 32) (hmeta : metadata.length = 76) :
    (∃ pb, (reprPrim cs pk).2 = .ok pb ∧
      (asset_info_preimage reprPrim cs name metadata pk nonce).2 =
        .ok (pb ++ byteEnc name ++ byteEnc metadata ++ byteEnc [nonce])) ∨
    (∃ e, (reprPrim cs pk).2 = .error e ∧
      (asset_info_preimage reprPrim cs name metadata pk nonce).2 =
        .error e) := by
  rcases hrepr : reprPrim cs pk with ⟨cs1, r⟩
  cases r with
  | error e =>
    right
    refine ⟨e, rfl, ?_⟩
    simp only [asset_info_preimage, hrepr]
  | ok pb =>
    left
    refine ⟨pb, rfl, ?_⟩
    simp only [asset_info_preimage, hrepr,
      slice_some_eq _ name 32 hname (by norm_num),
      slice_some_eq _ metadata 76 hmeta (by norm_num),
      slice_some_eq _ [nonce] 1 rfl (by norm_num)]

/-- Witness for C7 at the all-zero inputs with a failing representation
primitive. -/
theorem asset_info_preimage_all_or_error_witness :
    (List.replicate 32 (0 : Nat)).length = 32 ∧
    (List.replicate 76 (0 : Nat)).length = 76 ∧
    ((∃ pb,
        ((fun (cs : ConstraintSystem Int) (_ : EdwardsPoint Int) =>
            (cs, (.error .unsatisfiable :
              Except SynthesisError (List (Option Bool))))) csZ
          ⟨some 0⟩).2 = .ok pb ∧
        (asset_info_preimage
            (fun (cs : ConstraintSystem Int) (_ : EdwardsPoint Int) =>
              (cs, (.error .unsatisfiable :
                Except SynthesisError (List (Option Bool)))))
            csZ (List.replicate 32 0) (List.replicate 76 0)
            ⟨some 0⟩ 0).2 =
          .ok (pb ++ byteEnc (List.replicate 32 0) ++
            byteEnc (List.replicate 76 0) ++ byteEnc [0])) ∨
      (∃ e,
        ((fun (cs : ConstraintSystem Int) (_ : EdwardsPoint Int) =>
            (cs, (.error .unsatisfiable :
              Except SynthesisError (List (Option Bool))))) csZ
          ⟨some 0⟩).2 = .error e ∧
        (asset_info_preimage
            (fun (cs : ConstraintSystem Int) (_ : EdwardsPoint Int) =>
              (cs, (.error .unsatisfiable :
                Except SynthesisError (List (Option Bool)))))
            csZ (List.replicate 32 0) (List.replicate 76 0)
            ⟨some 0⟩ 0).2 = .error e)) :=
  ⟨rfl, rfl,
    asset_info_preimage_all_or_error
      (fun (cs : ConstraintSystem Int) (_ : EdwardsPoint Int) =>
        (cs, (.error .unsatisfiable :
          Except SynthesisError (List (Option Bool)))))
      csZ (List.replicate 32 0) (List.replicate 76 0) ⟨some 0⟩ 0 rfl rfl⟩

/-! ### Claim theorems about the Value Commitment Exposer and the
Public-Key Randomizer -/

theorem expose_value_commitment_eq {G : Type} [AddCommGroup G]
    (valueGen randomnessGen : G) (cs : ConstraintSystem G)
    (vc : ValueCommitment) :
    expose_value_commitment valueGen randomnessGen cs (some vc) =
      ({ cs with
          numWires := cs.numWires + 64 + 252,
          publicInputs := cs.publicInputs ++
            [some (decodeLE (bitsLE 64 vc.value) • valueGen +
              decodeLE (bitsLE 252 vc.randomness.val) • randomnessGen)] },
        .ok ((bitsLE 64 vc.value).map some)) := by
  simp only [expose_value_commitment, Option.map_some', u64_some_eq,
    field_some_eq, fixed_base_multiplication, collectBits_map_some,
    pointAdd, inputize]

/-- C1: for every amount `v` and blinding factor `r`, the Value Commitment
Exposer registers as a public input the point
`v • valueGen + r • randomnessGen`, and the bit sequence it returns is the
little-endian bit decomposition of `v`, which decodes back to `v`. -/
theorem expose_value_commitment_registers_commitment {G : Type}
    [AddCommGroup G] (valueGen randomnessGen : G)
    (cs : ConstraintSystem G) (v : Nat) (r : JubjubFr) (hv : v < 2 ^ 64) :
    (expose_value_commitment valueGen randomnessGen cs
        (some ⟨v, r⟩)).1.publicInputs =
      cs.publicInputs ++ [some (v • valueGen + scalarMul r randomnessGen)] ∧
    (expose_value_commitment valueGen randomnessGen cs (some ⟨v, r⟩)).2 =
      .ok ((bitsLE 64 v).map some) ∧
    decodeLE (bitsLE 64 v) = v := by
  have hdv : decodeLE (bitsLE 64 v) = v := decodeLE_bitsLE_of_lt 64 v hv
  have hdr : decodeLE (bitsLE 252 r.val) = r.val :=
    decodeLE_bitsLE_of_lt 252 r.val
      (lt_of_lt_of_le (ZMod.val_lt r) (le_of_lt jubjubOrder_lt))
  rw [expose_value_commitment_eq]
  refine ⟨?_, rfl, hdv⟩
  simp [hdv, hdr, scalarMul]

/-- Witness for C1 at `v = 5`, `r = 0`, integer generators `3` and `7`. -/
theorem expose_value_commitment_registers_commitment_witness :
    5 < 2 ^ 64 ∧
    ((expose_value_commitment (3 : Int) (7 : Int) csZ
          (some ⟨5, 0⟩)).1.publicInputs =
        csZ.publicInputs ++
          [some ((5 : Nat) • (3 : Int) + scalarMul 0 (7 : Int))] ∧
      (expose_value_commitment (3 : Int) (7 : Int) csZ (some ⟨5, 0⟩)).2 =
        .ok ((bitsLE 64 5).map some) ∧
      decodeLE (bitsLE 64 5) = 5) :=
  ⟨by norm_num,
    expose_value_commitment_registers_commitment 3 7 csZ 5 0 (by norm_num)⟩

/-- C8: the Value Commitment Exposer is deterministic: run over two
independently constructed (fresh) constraint systems with the same
commitment record, it registers identical commitment points. -/
theorem expose_value_commitment_deterministic {G : Type} [AddCommGroup G]
    (valueGen randomnessGen : G) (cs1 cs2 : ConstraintSystem G)
    (vc : ValueCommitment)
    (h1 : cs1.publicInputs = []) (h2 : cs2.publicInputs = []) :
    (expose_value_commitment valueGen randomnessGen cs1
        (some vc)).1.publicInputs =
      (expose_value_commitment valueGen randomnessGen cs2
        (some vc)).1.publicInputs := by
  rw [expose_value_commitment_eq, expose_value_commitment_eq]
  simp [h1, h2]

/-- Witness for C8 with two fresh constraint systems differing in their
wire counts and proving modes. -/
theorem expose_value_commitment_deterministic_witness :
    csZ.publicInputs = [] ∧
    (ConstraintSystem.mk (G := Int) true 5 []).publicInputs = [] ∧
    (expose_value_commitment (3 : Int) (7 : Int) csZ
        (some ⟨1, 0⟩)).1.publicInputs =
      (expose_value_commitment (3 : Int) (7 : Int) ⟨true, 5, []⟩
        (some ⟨1, 0⟩)).1.publicInputs :=
  ⟨rfl, rfl,
    expose_value_commitment_deterministic 3 7 csZ ⟨true, 5, []⟩ ⟨1, 0⟩
      rfl rfl⟩

/-- C4: for every randomizer `k` and public key point `P`, the Public-Key
Randomizer registers as a public input the point `P + k • assetKeyGen`
and returns only that side effect. -/
theorem expose_randomized_public_key_registers {G : Type} [AddCommGroup G]
    (assetKeyGen : G) (cs : ConstraintSystem G) (k : JubjubFr) (P : G) :
    (expose_randomized_public_key assetKeyGen cs (some k)
        ⟨some P⟩).1.publicInputs =
      cs.publicInputs ++ [some (P + scalarMul k assetKeyGen)] ∧
    (expose_randomized_public_key assetKeyGen cs (some k) ⟨some P⟩).2 =
      .ok () := by
  have hdr : decodeLE (bitsLE 252 k.val) = k.val :=
    decodeLE_bitsLE_of_lt 252 k.val
      (lt_of_lt_of_le (ZMod.val_lt k) (le_of_lt jubjubOrder_lt))
  simp only [expose_randomized_public_key, field_some_eq,
    fixed_base_multiplication, collectBits_map_some, Option.map_some',
    pointAdd, inputize, hdr, scalarMul]
  exact ⟨trivial, trivial⟩

end IronfishZkp
